import Mathlib

/-!
Verification of the core retained-set computation of image-janitor.

The Rust sources are embedded shallowly:
* a filesystem is a finite association list from absolute paths
  (component lists) to entries (regular file, symlink, directory);
* `std::fs` queries (`symlink_metadata`, `read_link`, `exists`,
  `metadata`) become lookups / fuelled chain resolution over that map
  (`exists`/`metadata` follow the final symlink chain, as `stat` does,
  with the Linux 40-link ceiling; symlinks in intermediate directory
  components are not modelled);
* external `modinfo` invocations become a `runner` function returning
  `Except`, mirroring the `CommandRunner` trait;
* fallible Rust functions returning `Result` become `Option`/`Except`.
-/

namespace ImageJanitor

/-- An absolute filesystem path, as its list of components. -/
abbrev FsPath := List String

/-- Lexical path cleaning as done by the `path_clean` crate on the
absolute paths produced by `parent().join(target)`: drop `.` components
and resolve `..` against the accumulated prefix. -/
def cleanPath (p : FsPath) : FsPath :=
  p.foldl
    (fun acc c =>
      if c = "." then acc
      else if c = ".." then acc.dropLast
      else acc ++ [c]) []

/-- The target stored in a symbolic link: `read_link` either yields an
absolute path or a path relative to the directory containing the link. -/
structure SymTarget where
  isAbs : Bool
  comps : List String
deriving DecidableEq, Repr

/-- A directory entry: regular file (with its byte size), symbolic
link, or directory. -/
inductive Entry where
  | file (size : Nat)
  | symlink (target : SymTarget)
  | dir
deriving DecidableEq, Repr

/-- A filesystem: a finite map from paths to entries, as an association
list (also fixing the directory-walk order used by `WalkDir`). -/
abbrev Fs := List (FsPath × Entry)

/-- Lookup of the entry at a path (`lstat` view: a symlink is reported
as itself, as `fs::symlink_metadata` does). -/
def lookupFs (fs : Fs) (p : FsPath) : Option Entry :=
  (fs.find? (fun e => decide (e.1 = p))).map (fun e => e.2)

/-- Parent directory (`Path::parent` on an absolute path). -/
def parentDir (p : FsPath) : FsPath := p.dropLast

/-- Resolution of one link target against the directory containing the
link, mirroring `parent_dir.join(target).clean()` in `resolve_symlinks`:
an absolute target replaces the whole path, a relative one is appended
to the parent directory, and the result is lexically cleaned. -/
def resolveLink (cur : FsPath) (t : SymTarget) : FsPath :=
  cleanPath (if t.isAbs then t.comps else parentDir cur ++ t.comps)

/-- One symlink hop: the resolved target if the entry at `p` is a
symlink, `none` otherwise. -/
def stepFs (fs : Fs) (p : FsPath) : Option FsPath :=
  match lookupFs fs p with
  | some (.symlink t) => some (resolveLink p t)
  | _ => none

/-- Full resolution of a path as `fs::metadata`/`Path::exists` perform
it: follow the symlink chain at the final component until a
non-symlink entry is found; a missing entry or fuel exhaustion
(the kernel's ELOOP limit) is a failure. -/
def resolveFully (fs : Fs) : Nat → FsPath → Option Entry
  | 0, _ => none
  | n + 1, p =>
    match lookupFs fs p with
    | some (.symlink t) => resolveFully fs n (resolveLink p t)
    | some e => some e
    | none => none

/-- The Linux symlink-following ceiling used by `stat`. -/
def linkFuel : Nat := 40

/-- Model of `Path::exists`: `stat` succeeds. -/
def pathExists (fs : Fs) (p : FsPath) : Bool :=
  (resolveFully fs linkFuel p).isSome

/-- Model of `Path::is_file`: `stat` succeeds and yields a regular
file. -/
def isFileFs (fs : Fs) (p : FsPath) : Bool :=
  match resolveFully fs linkFuel p with
  | some (.file _) => true
  | _ => false

/-- The loop body of `resolve_symlinks` (firmware.rs): at most `n`
further hops starting from `cur`, with `acc` the paths kept so far.
`none` models the `?` on `fs::symlink_metadata` (the entry at `cur` is
missing). A hop target outside `base`, or one that does not exist,
halts the chain; otherwise the target is pushed and the walk
continues. -/
def resolveGo (fs : Fs) (base : FsPath) : Nat → FsPath → List FsPath → Option (List FsPath)
  | 0, _, acc => some acc
  | n + 1, cur, acc =>
    match lookupFs fs cur with
    | none => none
    | some (.symlink t) =>
      let next := resolveLink cur t
      if base.isPrefixOf next = false then some acc
      else if pathExists fs next = false then some acc
      else resolveGo fs base n next (acc ++ [next])
    | some _ => some acc

/-- `resolve_symlinks` (firmware.rs lines 89-130): keep the starting
path, then follow at most 10 hops. -/
def resolve_symlinks (fs : Fs) (path base : FsPath) : Option (List FsPath) :=
  resolveGo fs base 10 path [path]

/-! Step lemmas for the `resolve_symlinks` loop. -/

lemma resolveGo_missing {fs : Fs} {base cur : FsPath} {n : Nat} {acc : List FsPath}
    (hl : lookupFs fs cur = none) :
    resolveGo fs base (n + 1) cur acc = none := by
  simp [resolveGo, hl]

lemma resolveGo_nonlink {fs : Fs} {base cur : FsPath} {n : Nat} {acc : List FsPath}
    {e : Entry} (hl : lookupFs fs cur = some e) (he : ∀ t, e ≠ .symlink t) :
    resolveGo fs base (n + 1) cur acc = some acc := by
  cases e with
  | symlink t => exact absurd rfl (he t)
  | file sz => simp [resolveGo, hl]
  | dir => simp [resolveGo, hl]

lemma resolveGo_outside {fs : Fs} {base cur : FsPath} {n : Nat} {acc : List FsPath}
    {t : SymTarget} (hl : lookupFs fs cur = some (.symlink t))
    (hpre : base.isPrefixOf (resolveLink cur t) = false) :
    resolveGo fs base (n + 1) cur acc = some acc := by
  simp [resolveGo, hl, hpre]

lemma resolveGo_broken {fs : Fs} {base cur : FsPath} {n : Nat} {acc : List FsPath}
    {t : SymTarget} (hl : lookupFs fs cur = some (.symlink t))
    (hpre : base.isPrefixOf (resolveLink cur t) = true)
    (hex : pathExists fs (resolveLink cur t) = false) :
    resolveGo fs base (n + 1) cur acc = some acc := by
  simp [resolveGo, hl, hpre, hex]

lemma resolveGo_step {fs : Fs} {base cur : FsPath} {n : Nat} {acc : List FsPath}
    {t : SymTarget} (hl : lookupFs fs cur = some (.symlink t))
    (hpre : base.isPrefixOf (resolveLink cur t) = true)
    (hex : pathExists fs (resolveLink cur t) = true) :
    resolveGo fs base (n + 1) cur acc
      = resolveGo fs base n (resolveLink cur t) (acc ++ [resolveLink cur t]) := by
  simp [resolveGo, hl, hpre, hex]

lemma stepFs_symlink {fs : Fs} {cur : FsPath} {t : SymTarget}
    (hl : lookupFs fs cur = some (.symlink t)) :
    stepFs fs cur = some (resolveLink cur t) := by
  simp [stepFs, hl]

lemma stepFs_some {fs : Fs} {cur q : FsPath} (h : stepFs fs cur = some q) :
    ∃ t, lookupFs fs cur = some (.symlink t) ∧ resolveLink cur t = q := by
  unfold stepFs at h
  cases hl : lookupFs fs cur with
  | none => rw [hl] at h; simp at h
  | some e =>
    cases e with
    | symlink t => rw [hl] at h; simp at h; exact ⟨t, rfl, h⟩
    | file sz => rw [hl] at h; simp at h
    | dir => rw [hl] at h; simp at h

/-- A set of paths closed under symlink stepping can never be fully
resolved: `stat` (and hence `Path::exists`) fails on it with any
amount of fuel.  This is the mechanism by which symlink cycles are cut
off by the `current_path.exists()` check in `resolve_symlinks`. -/
lemma closed_resolveFully_none {fs : Fs} {S : List FsPath}
    (hS : ∀ q ∈ S, ∃ q2, stepFs fs q = some q2 ∧ q2 ∈ S) :
    ∀ fuel q, q ∈ S → resolveFully fs fuel q = none := by
  intro fuel
  induction fuel with
  | zero => intro q _; rfl
  | succ n ih =>
    intro q hq
    obtain ⟨q2, hstep, hq2⟩ := hS q hq
    obtain ⟨t, hl, hres⟩ := stepFs_some hstep
    have : resolveFully fs (n + 1) q = resolveFully fs n (resolveLink q t) := by
      simp [resolveFully, hl]
    rw [this, hres]
    exact ih q2 hq2

lemma closed_pathExists_false {fs : Fs} {S : List FsPath}
    (hS : ∀ q ∈ S, ∃ q2, stepFs fs q = some q2 ∧ q2 ∈ S)
    {q : FsPath} (hq : q ∈ S) : pathExists fs q = false := by
  simp [pathExists, closed_resolveFully_none hS linkFuel q hq]

/-- Walking a symlink chain that loops back onto its first element
yields a step-closed set of paths. -/
lemma chain_loop_closed (fs : Fs) (T : List FsPath) :
    ∀ (ys : List FsPath) (z : FsPath), (∀ q ∈ ys, q ∈ T) → z ∈ T →
    List.Chain' (fun a b => stepFs fs a = some b) (ys ++ [z]) →
    ∀ q ∈ ys, ∃ q2, stepFs fs q = some q2 ∧ q2 ∈ T := by
  intro ys
  induction ys with
  | nil => intro z _ _ _ q hq; cases hq
  | cons a ys2 ih =>
    intro z hsub hz hch q hq
    rw [List.cons_append, List.chain'_cons'] at hch
    obtain ⟨hhead, htail⟩ := hch
    rcases List.mem_cons.mp hq with hqa | hqm
    · cases ys2 with
      | nil => exact ⟨z, by rw [hqa]; exact hhead z rfl, hz⟩
      | cons b ys3 =>
        refine ⟨b, by rw [hqa]; exact hhead b rfl, hsub b ?_⟩
        exact List.mem_cons_of_mem a (List.mem_cons_self b ys3)
    · exact ih z (fun r hr => hsub r (List.mem_cons_of_mem a hr)) hz htail q hqm

/-- The accumulated list of `resolve_symlinks` never repeats a path:
a repeat would close a symlink loop, on which the `exists()` guard
fails before the repeated path could be pushed. -/
lemma resolveGo_nodup {fs : Fs} {base : FsPath} :
    ∀ (n : Nat) (cur : FsPath) (acc res : List FsPath),
    acc.Nodup → acc.getLast? = some cur →
    List.Chain' (fun a b => stepFs fs a = some b) acc →
    resolveGo fs base n cur acc = some res → res.Nodup := by
  intro n
  induction n with
  | zero =>
    intro cur acc res hnd _ _ heq
    simp [resolveGo] at heq
    exact heq ▸ hnd
  | succ m ih =>
    intro cur acc res hnd hlast hch heq
    cases hl : lookupFs fs cur with
    | none => rw [resolveGo_missing hl] at heq; cases heq
    | some e =>
      cases e with
      | file sz =>
        rw [resolveGo_nonlink hl (by intro t h; cases h)] at heq
        cases heq; exact hnd
      | dir =>
        rw [resolveGo_nonlink hl (by intro t h; cases h)] at heq
        cases heq; exact hnd
      | symlink t =>
        cases hpre : base.isPrefixOf (resolveLink cur t) with
        | false =>
          rw [resolveGo_outside hl hpre] at heq
          cases heq; exact hnd
        | true =>
          cases hex : pathExists fs (resolveLink cur t) with
          | false =>
            rw [resolveGo_broken hl hpre hex] at heq
            cases heq; exact hnd
          | true =>
            rw [resolveGo_step hl hpre hex] at heq
            have hstep : stepFs fs cur = some (resolveLink cur t) := stepFs_symlink hl
            have hchall : List.Chain' (fun a b => stepFs fs a = some b)
                (acc ++ [resolveLink cur t]) := by
              refine List.Chain'.append hch (List.chain'_singleton _) ?_
              intro x hx y hy
              rw [hlast] at hx
              simp at hx hy
              rw [← hx, ← hy]
              exact hstep
            have hnotin : resolveLink cur t ∉ acc := by
              intro hmem
              obtain ⟨l1, l2, hacc⟩ := List.append_of_mem hmem
              have hcyc : List.Chain' (fun a b => stepFs fs a = some b)
                  ((resolveLink cur t :: l2) ++ [resolveLink cur t]) := by
                have : acc ++ [resolveLink cur t]
                    = l1 ++ ((resolveLink cur t :: l2) ++ [resolveLink cur t]) := by
                  rw [hacc]; simp
                rw [this] at hchall
                exact hchall.right_of_append
              have hclosed := chain_loop_closed fs (resolveLink cur t :: l2)
                (resolveLink cur t :: l2) (resolveLink cur t)
                (fun q hq => hq) (List.mem_cons_self _ _) hcyc
              have := closed_pathExists_false hclosed (List.mem_cons_self (resolveLink cur t) l2)
              rw [hex] at this
              cases this
            refine ih (resolveLink cur t) (acc ++ [resolveLink cur t]) res ?_ ?_ hchall heq
            · simp [List.nodup_append, hnd, hnotin]
            · simp

/-- Claim C1: starting inside any symlink cycle contained in the
firmware root, chain resolution returns exactly the starting path; and
in general the resolution of a chain never re-accumulates a path
already accumulated for that chain. -/
theorem resolve_symlinks_cycle_and_no_revisit :
    (∀ (fs : Fs) (base p : FsPath) (S : List FsPath),
      p ∈ S → (∀ q ∈ S, base.isPrefixOf q = true) →
      (∀ q ∈ S, ∃ q2, stepFs fs q = some q2 ∧ q2 ∈ S) →
      resolve_symlinks fs p base = some [p])
    ∧ (∀ (fs : Fs) (base p : FsPath) (res : List FsPath),
      resolve_symlinks fs p base = some res → res.Nodup) := by
  constructor
  · intro fs base p S hp hbase hS
    obtain ⟨q2, hstep, hq2⟩ := hS p hp
    obtain ⟨t, hl, hres⟩ := stepFs_some hstep
    unfold resolve_symlinks
    cases hpre : base.isPrefixOf (resolveLink p t) with
    | false => exact resolveGo_outside hl hpre
    | true =>
      have hex : pathExists fs (resolveLink p t) = false := by
        rw [hres]; exact closed_pathExists_false hS hq2
      exact resolveGo_broken hl hpre hex
  · intro fs base p res heq
    exact resolveGo_nodup 10 p [p] res (List.nodup_singleton p) rfl
      (List.chain'_singleton p) heq

/-- Running the loop along an explicit symlink chain whose hops are all
contained and existing, ending at a non-symlink entry, reproduces the
chain — provided the chain fits in the remaining hop budget. -/
lemma resolveGo_chain {fs : Fs} {base : FsPath} :
    ∀ (cs : List FsPath) (fuel : Nat) (cur : FsPath) (acc : List FsPath),
    cs.length ≤ fuel →
    List.Chain' (fun a b => stepFs fs a = some b) (cur :: cs) →
    (∀ q ∈ cs, base.isPrefixOf q = true ∧ pathExists fs q = true) →
    (∃ e, lookupFs fs ((cur :: cs).getLast (List.cons_ne_nil cur cs)) = some e
      ∧ ∀ t, e ≠ .symlink t) →
    resolveGo fs base fuel cur acc = some (acc ++ cs) := by
  intro cs
  induction cs with
  | nil =>
    intro fuel cur acc _ _ _ hterm
    obtain ⟨e, hl, he⟩ := hterm
    simp at hl
    cases fuel with
    | zero => simp [resolveGo]
    | succ n => simpa using resolveGo_nonlink hl he
  | cons c cs2 ih =>
    intro fuel cur acc hlen hch hhops hterm
    cases fuel with
    | zero => simp at hlen
    | succ n =>
      rw [List.chain'_cons] at hch
      obtain ⟨hstep, hch2⟩ := hch
      obtain ⟨t, hl, hres⟩ := stepFs_some hstep
      obtain ⟨hpre, hex⟩ := hhops c (List.mem_cons_self c cs2)
      rw [resolveGo_step hl (by rw [hres]; exact hpre) (by rw [hres]; exact hex), hres]
      have hterm2 : ∃ e, lookupFs fs ((c :: cs2).getLast (List.cons_ne_nil c cs2)) = some e
          ∧ ∀ t, e ≠ .symlink t := by
        obtain ⟨e, hl2, he2⟩ := hterm
        refine ⟨e, ?_, he2⟩
        rw [← hl2]
        exact congrArg (lookupFs fs) (List.getLast_cons (List.cons_ne_nil c cs2)).symm
      have := ih n c (acc ++ [c]) (by simp at hlen; omega)
        hch2 (fun q hq => hhops q (List.mem_cons_of_mem c hq)) hterm2
      rw [this]
      simp

/-! Concrete filesystem fixtures mirroring the unit tests of
firmware.rs. -/

/-- Shorthand for an absolute symlink target. -/
def absT (p : List String) : SymTarget := ⟨true, p⟩

/-- Shorthand for a relative symlink target. -/
def relT (p : List String) : SymTarget := ⟨false, p⟩

/-- Two symlinks forming a cycle, as in `test_resolve_symlinks_cycle`. -/
def fsCyc : Fs :=
  [ (["fw", "link1"], .symlink (absT ["fw", "link2"])),
    (["fw", "link2"], .symlink (absT ["fw", "link1"])) ]

/-- A straight chain `link3 → link2 → link1 → file.bin`, as in
`test_resolve_symlinks_linear_chain`. -/
def fsChain : Fs :=
  [ (["fw", "file.bin"], .file 4),
    (["fw", "link1"], .symlink (absT ["fw", "file.bin"])),
    (["fw", "link2"], .symlink (absT ["fw", "link1"])),
    (["fw", "link3"], .symlink (absT ["fw", "link2"])) ]

/-- A symlink whose target escapes the firmware root. -/
def fsOut : Fs :=
  [ (["etc", "x"], .file 1),
    (["fw", "link"], .symlink (absT ["etc", "x"])) ]

/-- A broken symlink, as in `test_resolve_symlinks_broken_link`. -/
def fsBroken : Fs := [ (["fw", "link"], .symlink (absT ["fw", "gone"])) ]

/-- A relative symlink two directories down, as in
`test_resolve_symlinks_relative`. -/
def fsRel : Fs :=
  [ (["fw", "file.bin"], .file 4),
    (["fw", "dir1"], .dir),
    (["fw", "dir1", "dir2"], .dir),
    (["fw", "dir1", "dir2", "link"], .symlink (relT ["..", "..", "file.bin"])) ]

/-- The i-th link of the long chain fixture. -/
def mkL (i : Nat) : FsPath := ["fw", "l" ++ toString i]

/-- A contained, unbroken chain of eleven symlinks ending at a regular
file: one hop more than the loop bound of `resolve_symlinks`. -/
def fs11 : Fs :=
  (["fw", "f"], Entry.file 1) ::
  (mkL 1, Entry.symlink (absT ["fw", "f"])) ::
  ((List.range 10).map (fun i => (mkL (i + 2), Entry.symlink (absT (mkL (i + 1))))))

/-- Counterexample to claim C5 as stated: on an eleven-hop contained,
unbroken chain the hop budget of 10 is exhausted and the terminal
regular file `fw/f` is not included in the returned list even though
every hop resolves inside the firmware root. -/
theorem resolve_symlinks_drops_terminal_beyond_ten_hops :
    lookupFs fs11 ["fw", "f"] = some (.file 1)
    ∧ resolve_symlinks fs11 (mkL 11) ["fw"]
      = some [mkL 11, mkL 10, mkL 9, mkL 8, mkL 7, mkL 6, mkL 5, mkL 4, mkL 3, mkL 2, mkL 1]
    ∧ ["fw", "f"] ∉
        [mkL 11, mkL 10, mkL 9, mkL 8, mkL 7, mkL 6, mkL 5, mkL 4, mkL 3, mkL 2, mkL 1] := by
  refine ⟨by decide, by decide, by decide⟩

/-- Claim C5, amended: a hop target resolved outside the firmware root
halts the chain without being included; a broken hop target halts the
chain without being included; a relative target is resolved against the
directory containing the link (concrete scenario of
`test_resolve_symlinks_relative`); and the terminal non-symlink file of
every contained, unbroken chain of at most ten hops is included (the
whole chain is returned). -/
theorem resolve_symlinks_halting_and_terminal :
    (∀ (fs : Fs) (base cur : FsPath) (n : Nat) (acc : List FsPath) (t : SymTarget),
      lookupFs fs cur = some (.symlink t) →
      base.isPrefixOf (resolveLink cur t) = false →
      resolveGo fs base (n + 1) cur acc = some acc)
    ∧ (∀ (fs : Fs) (base cur : FsPath) (n : Nat) (acc : List FsPath) (t : SymTarget),
      lookupFs fs cur = some (.symlink t) →
      base.isPrefixOf (resolveLink cur t) = true →
      pathExists fs (resolveLink cur t) = false →
      resolveGo fs base (n + 1) cur acc = some acc)
    ∧ resolve_symlinks fsRel ["fw", "dir1", "dir2", "link"] ["fw"]
      = some [["fw", "dir1", "dir2", "link"], ["fw", "file.bin"]]
    ∧ (∀ (fs : Fs) (base p : FsPath) (cs : List FsPath),
      cs.length ≤ 10 →
      List.Chain' (fun a b => stepFs fs a = some b) (p :: cs) →
      (∀ q ∈ cs, base.isPrefixOf q = true ∧ pathExists fs q = true) →
      (∃ e, lookupFs fs ((p :: cs).getLast (List.cons_ne_nil p cs)) = some e
        ∧ ∀ t, e ≠ .symlink t) →
      resolve_symlinks fs p base = some (p :: cs)) := by
  refine ⟨?_, ?_, by decide, ?_⟩
  · intro fs base cur n acc t hl hpre
    exact resolveGo_outside hl hpre
  · intro fs base cur n acc t hl hpre hex
    exact resolveGo_broken hl hpre hex
  · intro fs base p cs hlen hch hhops hterm
    unfold resolve_symlinks
    rw [resolveGo_chain cs 10 p [p] hlen hch hhops hterm]
    simp

/-- Witness for the amended C5 theorem at concrete inputs: an escaping
link halts, a broken link halts, and the three-hop chain of
`test_resolve_symlinks_linear_chain` is returned in full including the
terminal file. -/
theorem resolve_symlinks_halting_and_terminal_witness :
    resolveGo fsOut ["fw"] 1 ["fw", "link"] [["fw", "link"]] = some [["fw", "link"]]
    ∧ resolveGo fsBroken ["fw"] 1 ["fw", "link"] [["fw", "link"]] = some [["fw", "link"]]
    ∧ resolve_symlinks fsChain ["fw", "link3"] ["fw"]
      = some [["fw", "link3"], ["fw", "link2"], ["fw", "link1"], ["fw", "file.bin"]] := by
  refine ⟨?_, ?_, ?_⟩
  · exact resolve_symlinks_halting_and_terminal.1 fsOut ["fw"] ["fw", "link"] 0
      [["fw", "link"]] (absT ["etc", "x"]) (by decide) (by decide)
  · exact resolve_symlinks_halting_and_terminal.2.1 fsBroken ["fw"] ["fw", "link"] 0
      [["fw", "link"]] (absT ["fw", "gone"]) (by decide) (by decide) (by decide)
  · refine resolve_symlinks_halting_and_terminal.2.2.2 fsChain ["fw"] ["fw", "link3"]
      [["fw", "link2"], ["fw", "link1"], ["fw", "file.bin"]] (by decide) ?_
      (by decide) ⟨.file 4, by decide, by intro t h; cases h⟩
    refine List.Chain'.cons ?_ (List.Chain'.cons ?_ (List.Chain'.cons ?_
      (List.chain'_singleton _))) <;> decide

/-- Witness for the C1 theorem at the concrete two-link cycle of
`test_resolve_symlinks_cycle`, plus the no-revisit part applied to the
concrete linear chain. -/
theorem resolve_symlinks_cycle_and_no_revisit_witness :
    resolve_symlinks fsCyc ["fw", "link1"] ["fw"] = some [["fw", "link1"]]
    ∧ [["fw", "link3"], ["fw", "link2"], ["fw", "link1"], ["fw", "file.bin"]].Nodup := by
  constructor
  · apply resolve_symlinks_cycle_and_no_revisit.1 fsCyc ["fw"] ["fw", "link1"]
      [["fw", "link1"], ["fw", "link2"]] (by decide) (by decide)
    intro q hq
    simp at hq
    rcases hq with hq | hq
    · exact ⟨["fw", "link2"], by rw [hq]; decide, by decide⟩
    · exact ⟨["fw", "link1"], by rw [hq]; decide, by decide⟩
  · exact resolve_symlinks_cycle_and_no_revisit.2 fsChain ["fw"] ["fw", "link3"]
      [["fw", "link3"], ["fw", "link2"], ["fw", "link1"], ["fw", "file.bin"]] (by decide)

/-! Regular expressions.  Rules in config.rs are compiled with
`Regex::new` and applied with `Regex::is_match`, which performs an
unanchored search: the rule applies when the pattern matches any
substring of the haystack.  We embed the regex fragment the rule files
use (literals, `.`, concatenation, alternation, star) with Brzozowski
derivatives, and define `is_match` as the unanchored search. -/

inductive Re where
  | emp
  | eps
  | char (c : Char)
  | dot
  | seq (a b : Re)
  | alt (a b : Re)
  | star (a : Re)
deriving DecidableEq, Repr

/-- Does the regex accept the empty string? -/
def nullable : Re → Bool
  | .emp => false
  | .eps => true
  | .char _ => false
  | .dot => false
  | .seq a b => nullable a && nullable b
  | .alt a b => nullable a || nullable b
  | .star _ => true

/-- Brzozowski derivative with respect to one character. -/
def deriv (r : Re) (c : Char) : Re :=
  match r with
  | .emp => .emp
  | .eps => .emp
  | .char d => if d = c then .eps else .emp
  | .dot => .eps
  | .seq a b => if nullable a then .alt (.seq (deriv a c) b) (deriv b c) else .seq (deriv a c) b
  | .alt a b => .alt (deriv a c) (deriv b c)
  | .star a => .seq (deriv a c) (.star a)

/-- Whole-string acceptance. -/
def accepts (r : Re) : List Char → Bool
  | [] => nullable r
  | c :: cs => accepts (deriv r c) cs

/-- Does the regex accept some prefix of the string? -/
def matchPre (r : Re) : List Char → Bool
  | [] => nullable r
  | c :: cs => nullable r || matchPre (deriv r c) cs

/-- `Regex::is_match`: unanchored search, i.e. acceptance of some
prefix of some suffix of the haystack. -/
def is_match (r : Re) (s : List Char) : Bool :=
  s.tails.any (fun t => matchPre r t)

lemma matchPre_iff (r : Re) (t : List Char) :
    matchPre r t = true ↔ ∃ v w, t = v ++ w ∧ accepts r v = true := by
  induction t generalizing r with
  | nil =>
    constructor
    · intro h; exact ⟨[], [], rfl, h⟩
    · rintro ⟨v, w, hvw, hv⟩
      obtain ⟨hv2, hw2⟩ := List.append_eq_nil.mp hvw.symm
      rw [hv2] at hv
      exact hv
  | cons c cs ih =>
    simp only [matchPre, Bool.or_eq_true]
    constructor
    · rintro (h | h)
      · exact ⟨[], c :: cs, rfl, h⟩
      · obtain ⟨v, w, hvw, hv⟩ := (ih (deriv r c)).mp h
        exact ⟨c :: v, w, by rw [hvw]; rfl, hv⟩
    · rintro ⟨v, w, hvw, hv⟩
      cases v with
      | nil =>
        left
        exact hv
      | cons d v2 =>
        right
        injection hvw with h1 h2
        rw [← h1] at hv
        exact (ih (deriv r c)).mpr ⟨v2, w, h2, hv⟩

/-- The pattern `a.ko` as the rule loader compiles it: literal `a`,
any character, literal `k`, literal `o`. -/
def reAdotKO : Re := .seq (.char 'a') (.seq .dot (.seq (.char 'k') (.char 'o')))

/-- Claim C10: rule matching is an unanchored search — a rule applies
exactly when its regex accepts some substring of the relative path —
and in particular the pattern `a.ko` matches the relative path
`bcma.ko`. -/
theorem is_match_unanchored_search :
    (∀ (r : Re) (s : List Char),
      is_match r s = true ↔ ∃ u v w, s = u ++ v ++ w ∧ accepts r v = true)
    ∧ is_match reAdotKO "bcma.ko".data = true := by
  constructor
  · intro r s
    unfold is_match
    rw [List.any_eq_true]
    constructor
    · rintro ⟨t, ht, hm⟩
      obtain ⟨u, hu⟩ := (List.mem_tails t s).mp ht
      obtain ⟨v, w, hvw, hv⟩ := (matchPre_iff r t).mp hm
      exact ⟨u, v, w, by rw [← hu, hvw, List.append_assoc], hv⟩
    · rintro ⟨u, v, w, hs, hv⟩
      refine ⟨v ++ w, ?_, (matchPre_iff r (v ++ w)).mpr ⟨v, w, rfl, hv⟩⟩
      rw [List.mem_tails, hs, List.append_assoc]
      exact ⟨u, rfl⟩
  · decide

/-! The driver closure of driver.rs.

The `Driver` struct is `{name, path, deps}` with structural equality,
used as the member type of the `HashSet` keep set.  Only the path
relative to the kernel directory is ever consulted (for rule
matching), so `path` here is that relative path.  The name-keyed
`HashMap` of discovered drivers is embedded as a list of drivers with
name lookup. -/

structure Driver where
  name : String
  path : String
  deps : List String
deriving DecidableEq, Repr

/-- `driver_map.get(dep_name)`: lookup of a driver by name. -/
def lookupDriver (dmap : List Driver) (nm : String) : Option Driver :=
  dmap.find? (fun d => decide (d.name = nm))

/-- The seed phase of `cleanup_drivers` (driver.rs lines 77-87): for
every discovered driver, skip it if any delete-rule matches its
relative path, else keep it if any keep-rule matches; unmatched
drivers are not seeded.  Keep-set insertion is `HashSet::insert`
(no duplicates). -/
def seedKeepGo (toKeepRe toDeleteRe : List Re) : List Driver → List Driver → List Driver
  | [], keep => keep
  | d :: rest, keep =>
    if toDeleteRe.any (fun r => is_match r d.path.data) then
      seedKeepGo toKeepRe toDeleteRe rest keep
    else if toKeepRe.any (fun r => is_match r d.path.data) then
      seedKeepGo toKeepRe toDeleteRe rest (if d ∈ keep then keep else keep ++ [d])
    else seedKeepGo toKeepRe toDeleteRe rest keep

/-- The seed set produced by the rule-matching loop, starting from the
empty keep set. -/
def seedKeep (toKeepRe toDeleteRe : List Re) (drivers : List Driver) : List Driver :=
  seedKeepGo toKeepRe toDeleteRe drivers []

/-- Processing of one popped driver's dependency list (driver.rs lines
92-101): each dependency name present in the inventory is inserted
into the keep set, and recorded as newly pushed, only when
`to_keep.insert` reports it as new. -/
def processDeps (dmap : List Driver) : List String → List Driver → List Driver →
    List Driver × List Driver
  | [], keep, newl => (keep, newl)
  | dep :: rest, keep, newl =>
    match lookupDriver dmap dep with
    | none => processDeps dmap rest keep newl
    | some dd =>
      if dd ∈ keep then processDeps dmap rest keep newl
      else processDeps dmap rest (keep ++ [dd]) (newl ++ [dd])

/-- The number of inventory drivers not yet kept: the termination
measure of the closure loop. -/
def complC (dmap keep : List Driver) : Nat :=
  (dmap.filter (fun d => decide (d ∉ keep))).length

lemma complC_append_lt {dmap keep : List Driver} {dd : Driver}
    (hmem : dd ∈ dmap) (hnot : dd ∉ keep) :
    complC dmap (keep ++ [dd]) < complC dmap keep := by
  have hsub : List.Sublist (dmap.filter (fun d => decide (d ∉ keep ++ [dd])))
      (dmap.filter (fun d => decide (d ∉ keep))) := by
    apply List.monotone_filter_right
    intro a ha
    simp at ha ⊢
    exact fun h => absurd h ha.1
  have hle := hsub.length_le
  rcases Nat.lt_or_ge (complC dmap (keep ++ [dd])) (complC dmap keep) with h | h
  · exact h
  · exfalso
    have heq : dmap.filter (fun d => decide (d ∉ keep ++ [dd]))
        = dmap.filter (fun d => decide (d ∉ keep)) :=
      hsub.eq_of_length (Nat.le_antisymm hle h)
    have hin : dd ∈ dmap.filter (fun d => decide (d ∉ keep)) := by
      rw [List.mem_filter]
      exact ⟨hmem, by simpa using hnot⟩
    rw [← heq, List.mem_filter] at hin
    simp at hin

lemma processDeps_measure (dmap : List Driver) :
    ∀ (deps : List String) (keep newl : List Driver),
    complC dmap (processDeps dmap deps keep newl).1
      + (processDeps dmap deps keep newl).2.length
      ≤ complC dmap keep + newl.length := by
  intro deps
  induction deps with
  | nil => intro keep newl; simp [processDeps]
  | cons dep rest ih =>
    intro keep newl
    cases hl : lookupDriver dmap dep with
    | none => simpa [processDeps, hl] using ih keep newl
    | some dd =>
      by_cases hmem : dd ∈ keep
      · simpa [processDeps, hl, hmem] using ih keep newl
      · have hdd : dd ∈ dmap := by
          have := List.mem_of_find?_eq_some hl
          exact this
        have hlt := complC_append_lt hdd hmem
        have := ih (keep ++ [dd]) (newl ++ [dd])
        simp only [processDeps, hl, if_neg hmem]
        simp at this ⊢
        omega

/-- The worklist loop of `cleanup_drivers` (driver.rs lines 90-102):
pop a driver, fold its dependencies into the keep set, push the newly
inserted drivers, repeat until empty.  Terminates because every push
shrinks the set of not-yet-kept inventory drivers. -/
def runWorklist (dmap : List Driver) (keep wl : List Driver) : List Driver :=
  match wl with
  | [] => keep
  | d :: rest =>
    runWorklist dmap (processDeps dmap d.deps keep []).1
      ((processDeps dmap d.deps keep []).2 ++ rest)
termination_by complC dmap keep + wl.length
decreasing_by
  have := processDeps_measure dmap d.deps keep []
  simp at this
  simp
  omega

/-- The keep set `cleanup_drivers` has computed when the closure loop
exits: seed, then close under dependencies. -/
def cleanup_drivers_keep (toKeepRe toDeleteRe : List Re) (dmap : List Driver) : List Driver :=
  runWorklist dmap (seedKeep toKeepRe toDeleteRe dmap) (seedKeep toKeepRe toDeleteRe dmap)

/-- The deletion candidates: inventory minus keep set (driver.rs lines
104-106). -/
def cleanup_drivers_delete (toKeepRe toDeleteRe : List Re) (dmap : List Driver) : List Driver :=
  dmap.filter (fun d => decide (d ∉ cleanup_drivers_keep toKeepRe toDeleteRe dmap))

/-- A driver is dependency-closed relative to a set: every dependency
name present in the inventory maps to a driver of the set. -/
def DepClosed (dmap : List Driver) (S : List Driver) (d : Driver) : Prop :=
  ∀ dep ∈ d.deps, ∀ dd, lookupDriver dmap dep = some dd → dd ∈ S

lemma DepClosed.mono {dmap S T : List Driver} {d : Driver}
    (h : DepClosed dmap S d) (hsub : S ⊆ T) : DepClosed dmap T d :=
  fun dep hdep dd hdd => hsub (h dep hdep dd hdd)

/-- Structure of one dependency pass: it appends the same new drivers
to the keep set and to the new-pushes accumulator. -/
lemma processDeps_eq (dmap : List Driver) :
    ∀ (deps : List String) (keep newl : List Driver),
    ∃ l, processDeps dmap deps keep newl = (keep ++ l, newl ++ l) := by
  intro deps
  induction deps with
  | nil => intro keep newl; exact ⟨[], by simp [processDeps]⟩
  | cons dep rest ih =>
    intro keep newl
    cases hl : lookupDriver dmap dep with
    | none => simpa [processDeps, hl] using ih keep newl
    | some dd =>
      by_cases hmem : dd ∈ keep
      · simpa [processDeps, hl, hmem] using ih keep newl
      · obtain ⟨l2, hl2⟩ := ih (keep ++ [dd]) (newl ++ [dd])
        refine ⟨dd :: l2, ?_⟩
        simp [processDeps, hl, hmem, hl2]

lemma processDeps_keep_subset (dmap : List Driver) (deps : List String)
    (keep newl : List Driver) : keep ⊆ (processDeps dmap deps keep newl).1 := by
  obtain ⟨l, hl⟩ := processDeps_eq dmap deps keep newl
  rw [hl]
  exact List.subset_append_left keep l

/-- Every inventory-present dependency of the processed list ends up in
the keep set returned by the dependency pass. -/
lemma processDeps_covers (dmap : List Driver) :
    ∀ (deps : List String) (keep newl : List Driver) (dep : String) (dd : Driver),
    dep ∈ deps → lookupDriver dmap dep = some dd →
    dd ∈ (processDeps dmap deps keep newl).1 := by
  intro deps
  induction deps with
  | nil => intro keep newl dep dd h; cases h
  | cons dep2 rest ih =>
    intro keep newl dep dd hmem hdd
    rcases List.mem_cons.mp hmem with heq | hrest
    · rw [heq] at hdd
      cases hl : lookupDriver dmap dep2 with
      | none => rw [hl] at hdd; cases hdd
      | some de =>
        rw [hl] at hdd
        injection hdd with hde
        by_cases hk : de ∈ keep
        · simp only [processDeps, hl, if_pos hk]
          exact hde ▸ processDeps_keep_subset dmap rest keep newl hk
        · simp only [processDeps, hl, if_neg hk]
          refine hde ▸ processDeps_keep_subset dmap rest (keep ++ [de]) (newl ++ [de]) ?_
          simp
    · cases hl : lookupDriver dmap dep2 with
      | none => simp only [processDeps, hl]; exact ih keep newl dep dd hrest hdd
      | some de =>
        by_cases hk : de ∈ keep
        · simp only [processDeps, hl, if_pos hk]; exact ih keep newl dep dd hrest hdd
        · simp only [processDeps, hl, if_neg hk]
          exact ih (keep ++ [de]) (newl ++ [de]) dep dd hrest hdd

lemma processDeps_nodup (dmap : List Driver) :
    ∀ (deps : List String) (keep newl : List Driver), keep.Nodup →
    (processDeps dmap deps keep newl).1.Nodup := by
  intro deps
  induction deps with
  | nil => intro keep newl h; simpa [processDeps] using h
  | cons dep rest ih =>
    intro keep newl hnd
    cases hl : lookupDriver dmap dep with
    | none => simp only [processDeps, hl]; exact ih keep newl hnd
    | some dd =>
      by_cases hk : dd ∈ keep
      · simp only [processDeps, hl, if_pos hk]; exact ih keep newl hnd
      · simp only [processDeps, hl, if_neg hk]
        exact ih (keep ++ [dd]) (newl ++ [dd]) (by simp [List.nodup_append, hnd, hk])

/-- The worklist loop only grows the keep set. -/
lemma runWorklist_mono (dmap : List Driver) :
    ∀ (keep wl : List Driver), keep ⊆ runWorklist dmap keep wl := by
  intro keep wl
  induction keep, wl using runWorklist.induct dmap with
  | case1 keep => rw [runWorklist]; exact fun x hx => hx
  | case2 keep d rest ih =>
    rw [runWorklist]
    exact fun x hx => ih (processDeps_keep_subset dmap d.deps keep [] hx)

/-- The worklist loop preserves distinctness of the keep set: a driver
is inserted at most once. -/
lemma runWorklist_nodup (dmap : List Driver) :
    ∀ (keep wl : List Driver), keep.Nodup → (runWorklist dmap keep wl).Nodup := by
  intro keep wl
  induction keep, wl using runWorklist.induct dmap with
  | case1 keep => rw [runWorklist]; exact id
  | case2 keep d rest ih =>
    intro hnd
    rw [runWorklist]
    exact ih (processDeps_nodup dmap d.deps keep [] hnd)

/-- When the worklist empties, every kept driver whose processing is
not still pending is dependency-closed — hence the final keep set is a
fixed point of the dependency-expansion step. -/
lemma runWorklist_closed (dmap : List Driver) :
    ∀ (keep wl : List Driver),
    (∀ d ∈ keep, d ∉ wl → DepClosed dmap keep d) →
    ∀ d ∈ runWorklist dmap keep wl, DepClosed dmap (runWorklist dmap keep wl) d := by
  intro keep wl
  induction keep, wl using runWorklist.induct dmap with
  | case1 keep =>
    intro hinv d hd
    rw [runWorklist] at hd ⊢
    exact hinv d hd (by simp)
  | case2 keep d rest ih =>
    intro hinv
    rw [runWorklist]
    apply ih
    intro e he hewl
    obtain ⟨l, hpd⟩ := processDeps_eq dmap d.deps keep []
    rw [hpd] at he hewl ⊢
    simp only [List.nil_append] at he hewl ⊢
    rcases List.mem_append.mp he with hek | hel
    · by_cases hed : e = d
      · intro dep hdep dd hdd
        rw [hed] at hdep
        have := processDeps_covers dmap d.deps keep [] dep dd hdep hdd
        rw [hpd] at this
        exact this
      · have hnotrest : e ∉ rest := fun hr => hewl (List.mem_append_right l hr)
        have hnotwl : e ∉ d :: rest := by
          intro h
          rcases List.mem_cons.mp h with h | h
          · exact hed h
          · exact hnotrest h
        exact (hinv e hek hnotwl).mono (List.subset_append_left keep l)
    · exact absurd (List.mem_append_left rest hel) hewl

/-- Transitive reachability through dependency names present in the
inventory. -/
inductive Reaches (dmap : List Driver) : Driver → Driver → Prop where
  | refl (d : Driver) : Reaches dmap d d
  | step {a b c : Driver} (h : Reaches dmap a b) (dep : String) (hdep : dep ∈ b.deps)
      (hc : lookupDriver dmap dep = some c) : Reaches dmap a c

/-- Claim C3: the final keep set of `cleanup_drivers` is
dependency-closed (a fixed point of the expansion step, reached when
the worklist empties), and consequently contains every driver
reachable from a seeded driver through inventory-present dependency
names. -/
theorem cleanup_drivers_closure (toKeepRe toDeleteRe : List Re) (dmap : List Driver) :
    (∀ d ∈ cleanup_drivers_keep toKeepRe toDeleteRe dmap,
      DepClosed dmap (cleanup_drivers_keep toKeepRe toDeleteRe dmap) d)
    ∧ (∀ a b, a ∈ seedKeep toKeepRe toDeleteRe dmap → Reaches dmap a b →
      b ∈ cleanup_drivers_keep toKeepRe toDeleteRe dmap) := by
  have hclosed := runWorklist_closed dmap (seedKeep toKeepRe toDeleteRe dmap)
    (seedKeep toKeepRe toDeleteRe dmap) (fun d hd hnd => absurd hd hnd)
  refine ⟨hclosed, ?_⟩
  intro a b ha hreach
  induction hreach with
  | refl => exact runWorklist_mono dmap _ _ ha
  | step h dep hdep hc ih => exact hclosed _ ih dep hdep _ hc

/-- Claim C4: a driver whose relative path is matched by any
delete-rule is never seeded into the keep set, regardless of the
keep-rules. -/
theorem seedKeep_delete_wins (toKeepRe toDeleteRe : List Re) (drivers : List Driver)
    (d : Driver) (hdel : toDeleteRe.any (fun r => is_match r d.path.data) = true) :
    d ∉ seedKeep toKeepRe toDeleteRe drivers := by
  have hgo : ∀ (ds : List Driver) (keep : List Driver), d ∉ keep →
      d ∉ seedKeepGo toKeepRe toDeleteRe ds keep := by
    intro ds
    induction ds with
    | nil => intro keep h; exact h
    | cons e rest ih =>
      intro keep hk
      by_cases hdele : toDeleteRe.any (fun r => is_match r e.path.data) = true
      · simp only [seedKeepGo, if_pos hdele]
        exact ih keep hk
      · by_cases hkeepe : toKeepRe.any (fun r => is_match r e.path.data) = true
        · simp only [seedKeepGo, if_neg hdele, if_pos hkeepe]
          apply ih
          by_cases hek : e ∈ keep
          · simpa [hek] using hk
          · simp only [if_neg hek, List.mem_append]
            rintro (h | h)
            · exact hk h
            · simp at h
              rw [h] at hdel
              exact hdele hdel
        · simp only [seedKeepGo, if_neg hdele, if_neg hkeepe]
          exact ih keep hk
  exact hgo drivers [] (by simp)

/-! Concrete driver fixtures. -/

/-- A regex matching every string. -/
def reAll : Re := .star .dot

/-- A regex matching any string containing the letter `x`. -/
def reX : Re := .char 'x'

/-- Driver `a`, depending on `b`. -/
def dA : Driver := ⟨"a", "a.ko", ["b"]⟩

/-- Driver `b`, depending back on `a` (dependency cycle fixture). -/
def dB : Driver := ⟨"b", "b.ko", ["a"]⟩

/-- Witness for the C3 theorem: with the keep-rule `a.ko`, driver `a`
is seeded, reaches `b` through its dependency list, and `b` is in the
final keep set. -/
theorem cleanup_drivers_closure_witness :
    dB ∈ cleanup_drivers_keep [reAdotKO] [] [dA, dB] := by
  refine (cleanup_drivers_closure [reAdotKO] [] [dA, dB]).2 dA dB (by decide) ?_
  exact Reaches.step (Reaches.refl dA) "b" (by decide) (by decide)

/-- Claim C7: the closure loop terminates on every graph, inserting a
driver at most once (the keep set stays duplicate-free), and on the
cyclic graph `a → b → a` with `a` seeded the final keep set is exactly
`[a, b]`, each counted once. -/
theorem cleanup_drivers_cycle_termination :
    (∀ (dmap keep wl : List Driver), keep.Nodup → (runWorklist dmap keep wl).Nodup)
    ∧ cleanup_drivers_keep [reAdotKO] [] [dA, dB] = [dA, dB]
    ∧ List.count dA (cleanup_drivers_keep [reAdotKO] [] [dA, dB]) = 1
    ∧ List.count dB (cleanup_drivers_keep [reAdotKO] [] [dA, dB]) = 1 := by
  have hkeep : cleanup_drivers_keep [reAdotKO] [] [dA, dB] = [dA, dB] := by
    unfold cleanup_drivers_keep
    rw [(by decide : seedKeep [reAdotKO] [] [dA, dB] = [dA])]
    rw [runWorklist]
    show runWorklist [dA, dB] [dA, dB] [dB] = [dA, dB]
    rw [runWorklist]
    show runWorklist [dA, dB] [dA, dB] [] = [dA, dB]
    rw [runWorklist]
  exact ⟨fun dmap keep wl => runWorklist_nodup dmap keep wl, hkeep,
    by rw [hkeep]; decide, by rw [hkeep]; decide⟩

/-- Witness for the C7 theorem applied at the cyclic fixture. -/
theorem cleanup_drivers_cycle_termination_witness :
    (runWorklist [dA, dB] [dA] [dA]).Nodup :=
  cleanup_drivers_cycle_termination.1 [dA, dB] [dA] [dA] (by decide)

/-- Witness for the C4 theorem: the path `x.ko` is matched by the
delete-rule `x` and by the keep-everything rule, and is still not
seeded. -/
theorem seedKeep_delete_wins_witness :
    ⟨"x", "x.ko", []⟩ ∉ seedKeep [reAll] [reX] [⟨"x", "x.ko", []⟩] :=
  seedKeep_delete_wins [reAll] [reX] [⟨"x", "x.ko", []⟩] ⟨"x", "x.ko", []⟩ (by decide)

/-- Witness for the C10 theorem: a concrete decomposition of
`bcma.ko` showing the searched substring. -/
theorem is_match_unanchored_search_witness :
    is_match reAdotKO "bcma.ko".data = true :=
  (is_match_unanchored_search.1 reAdotKO "bcma.ko".data).mpr
    ⟨"bcm".data, "a.ko".data, [], by decide, by decide⟩

/-! The architecture filter of config.rs (`arch_filter`, lines 50-84).
Lines are lists of characters.  The two anchored tag patterns
`^\s*<(\w+)\s*>\s*$` and `^\s*</\w+\s*>\s*$` are embedded as direct
parsers over the line. -/

/-- Character class `\s`. -/
def isSpaceChar (c : Char) : Bool := c.isWhitespace

/-- Character class `\w`. -/
def isWordChar (c : Char) : Bool := c.isAlphanum || c = '_'

/-- Matching of `^\s*<(\w+)\s*>\s*$` with its capture: the opened
architecture tag, if the line is an open-tag line. -/
def parseStartTag (l : List Char) : Option (List Char) :=
  match l.dropWhile isSpaceChar with
  | '<' :: rest =>
    let tag := rest.takeWhile isWordChar
    if tag.isEmpty then none
    else
      match ((rest.dropWhile isWordChar).dropWhile isSpaceChar) with
      | '>' :: rest2 => if (rest2.dropWhile isSpaceChar).isEmpty then some tag else none
      | _ => none
  | _ => none

/-- Matching of `^\s*</\w+\s*>\s*$`: is the line an end-tag line
(closing any tag)? -/
def isEndTag (l : List Char) : Bool :=
  match l.dropWhile isSpaceChar with
  | '<' :: '/' :: rest =>
    let tag := rest.takeWhile isWordChar
    if tag.isEmpty then false
    else
      match ((rest.dropWhile isWordChar).dropWhile isSpaceChar) with
      | '>' :: rest2 => (rest2.dropWhile isSpaceChar).isEmpty
      | _ => false
  | _ => false

/-- How the loop body of `arch_filter` sees a line, in the order the
code tests: open-tag first, then end-tag, else an ordinary line. -/
inductive LineKind where
  | start (tag : List Char)
  | stop
  | plain
deriving DecidableEq, Repr

/-- Classification of a line following the test order of the loop. -/
def classify (l : List Char) : LineKind :=
  match parseStartTag l with
  | some t => .start t
  | none => if isEndTag l then .stop else .plain

/-- The loop of `arch_filter`: an open-tag line sets `skipping` to
whether the opened tag differs from the current architecture
(unconditionally — no nesting), an end-tag line clears `skipping`
(whatever tag it names), and an ordinary line is kept exactly when not
skipping. -/
def archGo (arch : List Char) : List (List Char) → Bool → List (List Char)
  | [], _ => []
  | l :: ls, skipping =>
    match parseStartTag l with
    | some tag => archGo arch ls (!decide (tag = arch))
    | none =>
      if isEndTag l then archGo arch ls false
      else if skipping then archGo arch ls skipping
      else l :: archGo arch ls skipping

/-- `arch_filter` (config.rs lines 50-84): filter rule lines by the
current architecture, starting outside any tagged block. -/
def arch_filter (lines : List (List Char)) (arch : List Char) : List (List Char) :=
  archGo arch lines false

lemma classify_stop_elim {l : List Char} (h : classify l = .stop) :
    parseStartTag l = none ∧ isEndTag l = true := by
  unfold classify at h
  cases hs : parseStartTag l with
  | some t => rw [hs] at h; cases h
  | none =>
    rw [hs] at h
    by_cases he : isEndTag l = true
    · exact ⟨rfl, he⟩
    · rw [if_neg he] at h; cases h

lemma classify_plain_elim {l : List Char} (h : classify l = .plain) :
    parseStartTag l = none ∧ isEndTag l = false := by
  unfold classify at h
  cases hs : parseStartTag l with
  | some t => rw [hs] at h; cases h
  | none =>
    rw [hs] at h
    by_cases he : isEndTag l = true
    · rw [if_pos he] at h; cases h
    · exact ⟨rfl, by simpa using he⟩

lemma archGo_plain_notskipping (arch : List Char) :
    ∀ (body sfx : List (List Char)), (∀ l ∈ body, classify l = .plain) →
    archGo arch (body ++ sfx) false = body ++ archGo arch sfx false := by
  intro body
  induction body with
  | nil => intro sfx _; rfl
  | cons l body2 ih =>
    intro sfx hp
    obtain ⟨hs, he⟩ := classify_plain_elim (hp l (List.mem_cons_self l body2))
    have hstep : archGo arch (l :: (body2 ++ sfx)) false
        = l :: archGo arch (body2 ++ sfx) false := by
      simp [archGo, hs, he]
    rw [List.cons_append, hstep, ih sfx (fun q hq => hp q (List.mem_cons_of_mem l hq))]
    rfl

lemma archGo_plain_skipping (arch : List Char) :
    ∀ (body sfx : List (List Char)), (∀ l ∈ body, classify l = .plain) →
    archGo arch (body ++ sfx) true = archGo arch sfx true := by
  intro body
  induction body with
  | nil => intro sfx _; rfl
  | cons l body2 ih =>
    intro sfx hp
    obtain ⟨hs, he⟩ := classify_plain_elim (hp l (List.mem_cons_self l body2))
    have hstep : archGo arch (l :: (body2 ++ sfx)) true
        = archGo arch (body2 ++ sfx) true := by
      simp [archGo, hs, he]
    rw [List.cons_append, hstep]
    exact ih sfx (fun q hq => hp q (List.mem_cons_of_mem l hq))

/-- Claim C6: an open-tag line resets tracking to the new tag whatever
the current skip state (no nesting); any end-tag line clears the skip
state regardless of the tag it names; the lines of a `<tag>…</tag>`
block survive filtering exactly when the tag equals the current
architecture; and lines outside any tagged block are always kept. -/
theorem arch_filter_spec :
    (∀ (arch lo t : List Char) (ls : List (List Char)) (skipping : Bool),
      parseStartTag lo = some t →
      archGo arch (lo :: ls) skipping = archGo arch ls (!decide (t = arch)))
    ∧ (∀ (arch le : List Char) (ls : List (List Char)) (skipping : Bool),
      classify le = .stop →
      archGo arch (le :: ls) skipping = archGo arch ls false)
    ∧ (∀ (arch lo t le : List Char) (body rest : List (List Char)) (skipping : Bool),
      parseStartTag lo = some t →
      (∀ l ∈ body, classify l = .plain) →
      classify le = .stop →
      archGo arch (lo :: (body ++ le :: rest)) skipping
        = (if t = arch then body else []) ++ archGo arch rest false)
    ∧ (∀ (arch : List Char) (ls : List (List Char)),
      (∀ l ∈ ls, classify l = .plain) → arch_filter ls arch = ls) := by
  have hopen : ∀ (arch lo t : List Char) (ls : List (List Char)) (skipping : Bool),
      parseStartTag lo = some t →
      archGo arch (lo :: ls) skipping = archGo arch ls (!decide (t = arch)) := by
    intro arch lo t ls skipping hs
    simp only [archGo, hs]
  have hstop : ∀ (arch le : List Char) (ls : List (List Char)) (skipping : Bool),
      classify le = .stop →
      archGo arch (le :: ls) skipping = archGo arch ls false := by
    intro arch le ls skipping hcl
    obtain ⟨hs, he⟩ := classify_stop_elim hcl
    simp only [archGo, hs, he]
    simp
  refine ⟨hopen, hstop, ?_, ?_⟩
  · intro arch lo t le body rest skipping hs hbody hle
    rw [hopen arch lo t (body ++ le :: rest) skipping hs]
    by_cases ht : t = arch
    · rw [if_pos ht]
      have hd : (!decide (t = arch)) = false := by simp [ht]
      rw [hd, archGo_plain_notskipping arch body (le :: rest) hbody,
        hstop arch le rest false hle]
    · rw [if_neg ht]
      have hd : (!decide (t = arch)) = true := by simp [ht]
      rw [hd, archGo_plain_skipping arch body (le :: rest) hbody,
        hstop arch le rest true hle]
      rfl
  · intro arch ls hp
    unfold arch_filter
    have := archGo_plain_notskipping arch ls [] hp
    simpa [archGo] using this

/-- The spec scenario for architecture filtering: an `x86_64` block, an
`aarch64` block and one untagged line, queried for `x86_64`. -/
def archLines : List (List Char) :=
  ["<x86_64>".data, "intel_driver".data, "</x86_64>".data,
   "<aarch64>".data, "arm_driver".data, "</aarch64>".data,
   "common_driver".data]

/-- Witness for the C6 theorem: on the concrete scenario the theorem
reproduces the expected output (`intel_driver` plus the untagged
line), and each conjunct is applied at a concrete input. -/
theorem arch_filter_spec_witness :
    arch_filter archLines "x86_64".data = ["intel_driver".data, "common_driver".data] := by
  have h1 := arch_filter_spec.2.2.1 "x86_64".data "<x86_64>".data "x86_64".data
    "</x86_64>".data ["intel_driver".data]
    ("<aarch64>".data :: (["arm_driver".data] ++ "</aarch64>".data :: ["common_driver".data]))
    false (by decide) (by decide) (by decide)
  have h2 := arch_filter_spec.2.2.1 "x86_64".data "<aarch64>".data "aarch64".data
    "</aarch64>".data ["arm_driver".data] ["common_driver".data]
    false (by decide) (by decide) (by decide)
  have h3 := arch_filter_spec.2.2.2 "x86_64".data ["common_driver".data] (by decide)
  unfold arch_filter at h3 ⊢
  show archGo "x86_64".data ("<x86_64>".data :: (["intel_driver".data] ++ "</x86_64>".data ::
    ("<aarch64>".data :: (["arm_driver".data] ++ "</aarch64>".data :: ["common_driver".data]))))
    false = _
  rw [h1, h2, h3]
  decide

/-! The firmware requirement resolver and deletion planner of
firmware.rs. -/

/-- Splitting of a character list at a separator (used to model
`str::lines` and the `/`-separation of path strings). -/
def splitOnChar (sep : Char) : List Char → List (List Char)
  | [] => [[]]
  | c :: cs =>
    match splitOnChar sep cs with
    | [] => if c = sep then [[], [c]] else [[c]]
    | h :: t => if c = sep then [] :: h :: t else (c :: h) :: t

/-- A firmware name possibly containing `/` separators, as the path
components `fw_dir.join(fw_name)` appends. -/
def splitPathStr (s : String) : List String := (splitOnChar '/' s.data).map String.mk

/-- `str::lines` on the output of `modinfo -F firmware`: split at
newlines, drop a final empty segment, strip one trailing carriage
return per line. -/
def linesOf (s : String) : List String :=
  let parts := splitOnChar '\n' s.data
  let parts2 := if parts.getLast? = some [] then parts.dropLast else parts
  parts2.map (fun l => String.mk (if l.getLast? = some '\r' then l.dropLast else l))

/-- Appending a suffix (such as `.xz`) to the path string, i.e. to the
final path component (`format!("{}{}", pattern, ext)`). -/
def addExt : FsPath → String → FsPath
  | [], e => [e]
  | [c], e => [c ++ e]
  | c :: rest, e => c :: addExt rest e

/-- The final component of a path. -/
def lastComp : FsPath → String
  | [] => ""
  | [c] => c
  | _ :: rest => lastComp rest

/-- `Path::extension`: the portion of the file name after the last
dot, none when there is no dot or when the only dot is leading. -/
def extensionOf (s : String) : Option String :=
  let rev := s.data.reverse
  match rev.dropWhile (fun c => decide (c ≠ '.')) with
  | '.' :: pre =>
    if pre.isEmpty then none
    else some (String.mk (rev.takeWhile (fun c => decide (c ≠ '.'))).reverse)
  | _ => none

/-- The kernel-module file test of `find_kernel_modules`
(firmware.rs lines 16-19): extension `ko`, or a path string ending in
`.ko.xz` or `.ko.zst` (a suffix without `/` concerns only the final
component). -/
def isModuleFile (p : FsPath) : Bool :=
  decide (extensionOf (lastComp p) = some "ko")
  || ".ko.xz".data.isSuffixOf (lastComp p).data
  || ".ko.zst".data.isSuffixOf (lastComp p).data

/-- The paths the directory walk rooted at `dir` enumerates. -/
def walkPaths (fs : Fs) (dir : FsPath) : List FsPath :=
  (fs.map (fun e => e.1)).filter (fun p => dir.isPrefixOf p)

/-- `find_kernel_modules` (firmware.rs lines 11-25): the walked paths
that are files with a kernel-module name. -/
def find_kernel_modules (fs : Fs) (kernel_dir : FsPath) : List FsPath :=
  (walkPaths fs kernel_dir).filter (fun p => isFileFs fs p && isModuleFile p)

/-- `get_firmware_deps_for_module` (firmware.rs lines 27-36): run
`modinfo -F firmware` through the command runner and split its output
into lines; a runner failure is propagated with `?`. -/
def get_firmware_deps_for_module (runner : FsPath → Except String String)
    (module_path : FsPath) : Except String (List String) :=
  match runner module_path with
  | .error e => .error e
  | .ok out => .ok (linesOf out)

/-- Glob matching of one `*`-wildcard pattern component against one
path component (`*` matches any character run within the component). -/
def globSegMatch : List Char → List Char → Bool
  | [], s => s.isEmpty
  | '*' :: ps, s =>
    globSegMatch ps s ||
      (match s with
       | [] => false
       | _ :: s2 => globSegMatch ('*' :: ps) s2)
  | _ :: _, [] => false
  | p :: ps, c :: cs => decide (p = c) && globSegMatch ps cs
termination_by pat s => (pat.length, s.length)

/-- Component-wise glob matching of a pattern path against a path
(`*` does not cross `/`). -/
def globPathMatch : FsPath → FsPath → Bool
  | [], [] => true
  | pc :: ps, c :: cs => globSegMatch pc.data c.data && globPathMatch ps cs
  | _, _ => false

/-- `find_firmware_files_from_name` (firmware.rs lines 38-66).  For a
literal name: the three candidate paths — the literal path under the
firmware root and that path with `.xz` and `.zst` appended — filtered
by existence on disk.  For a wildcard name: the glob expansion of the
pattern and its two compressed variants over the existing paths,
de-duplicated (the `HashSet` collects the union). -/
def find_firmware_files_from_name (fs : Fs) (fw_name : String) (fw_dir : FsPath) :
    List FsPath :=
  let cand := fw_dir ++ splitPathStr fw_name
  if (fw_name.data.contains '*') = false then
    [cand, addExt cand ".xz", addExt cand ".zst"].filter (fun p => pathExists fs p)
  else
    (([cand, addExt cand ".xz", addExt cand ".zst"].map
      (fun pat => (fs.map (fun e => e.1)).filter (fun p => globPathMatch pat p))).flatten).dedup

/-- `HashSet::insert` on the accumulated required set. -/
def insertPath (l : List FsPath) (p : FsPath) : List FsPath :=
  if p ∈ l then l else l ++ [p]

/-- `required.extend(symlinks)`. -/
def unionPaths (l ps : List FsPath) : List FsPath := ps.foldl insertPath l

/-- The inner loop of `get_required_firmware` over matched firmware
files: resolve each symlink chain and union the kept paths; a
`resolve_symlinks` failure is propagated with `?`. -/
def requiredFromFiles (fs : Fs) (fw_dir : FsPath) :
    List FsPath → List FsPath → Except String (List FsPath)
  | [], acc => .ok acc
  | f :: rest, acc =>
    match resolve_symlinks fs f fw_dir with
    | none => .error "symlink metadata error"
    | some ps => requiredFromFiles fs fw_dir rest (unionPaths acc ps)

/-- The loop of `get_required_firmware` over one module's declared
firmware names. -/
def requiredFromNames (fs : Fs) (fw_dir : FsPath) :
    List String → List FsPath → Except String (List FsPath)
  | [], acc => .ok acc
  | nm :: rest, acc =>
    match requiredFromFiles fs fw_dir (find_firmware_files_from_name fs nm fw_dir) acc with
    | .error e => .error e
    | .ok acc2 => requiredFromNames fs fw_dir rest acc2

/-- The outer loop of `get_required_firmware` (firmware.rs lines
76-85) over the kernel modules: the `?` on
`get_firmware_deps_for_module` at line 77 propagates a metadata-lookup
failure, aborting the whole computation. -/
def requiredFromModules (fs : Fs) (fw_dir : FsPath) (runner : FsPath → Except String String) :
    List FsPath → List FsPath → Except String (List FsPath)
  | [], acc => .ok acc
  | m :: rest, acc =>
    match get_firmware_deps_for_module runner m with
    | .error e => .error e
    | .ok names =>
      match requiredFromNames fs fw_dir names acc with
      | .error e => .error e
      | .ok acc2 => requiredFromModules fs fw_dir runner rest acc2

/-- `get_required_firmware` (firmware.rs lines 68-87). -/
def get_required_firmware (fs : Fs) (kernel_dir fw_dir : FsPath)
    (runner : FsPath → Except String String) : Except String (List FsPath) :=
  requiredFromModules fs fw_dir runner (find_kernel_modules fs kernel_dir) []

/-- `strip_prefix` of the firmware root (callers only apply it to
paths under the root). -/
def relTo (base p : FsPath) : FsPath := p.drop base.length

/-- `fs::remove_file`: drop the entry at the path. -/
def removeEntry (fs : Fs) (p : FsPath) : Fs :=
  fs.filter (fun e => decide (e.1 ≠ p))

/-- The loop of `remove_unused_files` (firmware.rs lines 140-154) over
the walked paths: a path that is (or resolves to) a regular file and
whose root-relative path is not required contributes its `metadata`
size, and is removed when deletion is authorized. -/
def ruGo (fw_dir : FsPath) (required : List FsPath) (delete : Bool) :
    List FsPath → Fs → Nat → Fs × Nat
  | [], fs, acc => (fs, acc)
  | p :: rest, fs, acc =>
    match resolveFully fs linkFuel p with
    | some (.file sz) =>
      if relTo fw_dir p ∈ required then ruGo fw_dir required delete rest fs acc
      else if delete then ruGo fw_dir required delete rest (removeEntry fs p) (acc + sz)
      else ruGo fw_dir required delete rest fs (acc + sz)
    | _ => ruGo fw_dir required delete rest fs acc

/-- `remove_unused_files` (firmware.rs lines 132-156): returns the
mutated filesystem and the total size of the unused files. -/
def remove_unused_files (fs : Fs) (fw_dir : FsPath) (required : List FsPath)
    (delete : Bool) : Fs × Nat :=
  ruGo fw_dir required delete (walkPaths fs fw_dir) fs 0

/-- The loop of `remove_dangling_symlinks` (firmware.rs lines
158-171): a symlink whose `fs::metadata` fails is removed. -/
def rdGo : List FsPath → Fs → Fs
  | [], fs => fs
  | p :: rest, fs =>
    match lookupFs fs p with
    | some (.symlink _) =>
      if pathExists fs p then rdGo rest fs else rdGo rest (removeEntry fs p)
    | _ => rdGo rest fs

/-- `remove_dangling_symlinks` over the walk of the firmware root. -/
def remove_dangling_symlinks (fs : Fs) (fw_dir : FsPath) : Fs :=
  rdGo (walkPaths fs fw_dir) fs

/-- `Path::is_dir`: `stat` resolves to a directory. -/
def isDirFs (fs : Fs) (p : FsPath) : Bool :=
  match resolveFully fs linkFuel p with
  | some .dir => true
  | _ => false

/-- Does a directory still have an entry below it (`read_dir` yields
something)? -/
def hasChild (fs : Fs) (p : FsPath) : Bool :=
  fs.any (fun e => p.isPrefixOf e.1 && !(decide (e.1 = p)))

/-- The loop of `remove_empty_directories` (firmware.rs lines
186-192): remove a now-empty directory unless it is the root. -/
def reGo (fw_dir : FsPath) : List FsPath → Fs → Fs
  | [], fs => fs
  | p :: rest, fs =>
    if decide (p ≠ fw_dir) && !(hasChild fs p) then reGo fw_dir rest (removeEntry fs p)
    else reGo fw_dir rest fs

/-- `remove_empty_directories` (firmware.rs lines 173-194): the walked
directories, deepest first, each removed when empty. -/
def remove_empty_directories (fs : Fs) (fw_dir : FsPath) : Fs :=
  reGo fw_dir
    (((walkPaths fs fw_dir).filter (fun p => isDirFs fs p)).mergeSort
      (fun a b => decide (b.length ≤ a.length))) fs

/-- `cleanup_firmware` (firmware.rs lines 196-220), from the selected
kernel directory on (the versioned-directory selection of
`util::find_kernel_dir` is taken as an input): derive the required
set, make the required paths root-relative, run the unused-file pass,
and run the dangling-symlink and empty-directory passes only when
deletion is authorized. -/
def cleanup_firmware (fs : Fs) (kernel_dir fw_dir : FsPath) (delete : Bool)
    (runner : FsPath → Except String String) : Except String (Fs × Nat) :=
  match get_required_firmware fs kernel_dir fw_dir runner with
  | .error e => .error e
  | .ok requiredAbs =>
    let required := requiredAbs.map (relTo fw_dir)
    let res := remove_unused_files fs fw_dir required delete
    if delete then
      .ok (remove_empty_directories (remove_dangling_symlinks res.1 fw_dir) fw_dir, res.2)
    else .ok (res.1, res.2)

/-! Lookup and removal lemmas. -/

lemma lookupFs_removeEntry_ne {fs : Fs} {p q : FsPath} (hne : q ≠ p) :
    lookupFs (removeEntry fs p) q = lookupFs fs q := by
  induction fs with
  | nil => rfl
  | cons e rest ih =>
    by_cases hep : e.1 = p
    · have h1 : removeEntry (e :: rest) p = removeEntry rest p := by
        simp [removeEntry, List.filter_cons, hep]
      have h2 : lookupFs (e :: rest) q = lookupFs rest q := by
        have : ¬(e.1 = q) := fun h => hne (h ▸ hep.symm ▸ rfl)
        simp [lookupFs, List.find?_cons, this]
      rw [h1, h2]
      exact ih
    · have h1 : removeEntry (e :: rest) p = e :: removeEntry rest p := by
        simp [removeEntry, List.filter_cons, hep]
      rw [h1]
      by_cases heq : e.1 = q
      · simp [lookupFs, List.find?_cons, heq]
      · have h2 : lookupFs (e :: removeEntry rest p) q = lookupFs (removeEntry rest p) q := by
          simp only [lookupFs]
          rw [List.find?_cons_of_neg]
          simp [heq]
        have h3 : lookupFs (e :: rest) q = lookupFs rest q := by
          simp only [lookupFs]
          rw [List.find?_cons_of_neg]
          simp [heq]
        rw [h2, h3]
        exact ih

lemma lookupFs_removeEntry_self {fs : Fs} {p : FsPath} :
    lookupFs (removeEntry fs p) p = none := by
  have h : List.find? (fun e => decide (e.1 = p)) (removeEntry fs p) = none := by
    rw [List.find?_eq_none]
    intro a ha h3
    have h2 := (List.mem_filter.mp ha).2
    exact absurd (of_decide_eq_true h3) (of_decide_eq_true h2)
  simp [lookupFs, h]

lemma lookupFs_none_removeEntry {fs : Fs} {p q : FsPath} (h : lookupFs fs q = none) :
    lookupFs (removeEntry fs p) q = none := by
  by_cases hqp : q = p
  · rw [hqp]; exact lookupFs_removeEntry_self
  · rw [lookupFs_removeEntry_ne hqp]; exact h

lemma lookupFs_of_mem_nodup {fs : Fs} {p : FsPath} {e : Entry}
    (hnd : (fs.map (fun x => x.1)).Nodup) (hmem : (p, e) ∈ fs) :
    lookupFs fs p = some e := by
  induction fs with
  | nil => cases hmem
  | cons f rest ih =>
    rcases List.mem_cons.mp hmem with heq | hrest
    · rw [← heq]
      simp [lookupFs, List.find?_cons]
    · by_cases hfp : f.1 = p
      · exfalso
        simp only [List.map_cons, List.nodup_cons] at hnd
        exact hnd.1 (hfp ▸ (List.mem_map.mpr ⟨(p, e), hrest, rfl⟩))
      · have h1 : lookupFs (f :: rest) p = lookupFs rest p := by
          simp only [lookupFs]
          rw [List.find?_cons_of_neg]
          simp [hfp]
        rw [h1]
        exact ih (by simpa using hnd.of_cons) hrest

lemma resolveFully_of_lookup {fs : Fs} {p : FsPath} {e : Entry}
    (hl : lookupFs fs p = some e) (he : ∀ t, e ≠ .symlink t) :
    resolveFully fs linkFuel p = some e := by
  show resolveFully fs (39 + 1) p = some e
  cases e with
  | symlink t => exact absurd rfl (he t)
  | file sz => simp [resolveFully, hl]
  | dir => simp [resolveFully, hl]

/-- `metadata(..).len()` of a path: the size of the regular file the
path resolves to. -/
def fileSize (fs : Fs) (p : FsPath) : Nat :=
  match resolveFully fs linkFuel p with
  | some (.file sz) => sz
  | _ => 0

/-- Specification of the reported savings, following the claim: the
total byte size of the walked files whose root-relative path is not in
the required set. -/
def unusedSize (fs : Fs) (fw_dir : FsPath) (required : List FsPath) : Nat :=
  ((((walkPaths fs fw_dir).filter (fun p => isFileFs fs p)).filter
    (fun p => decide (relTo fw_dir p ∉ required))).map (fun p => fileSize fs p)).sum

lemma ruGo_dry (fw_dir : FsPath) (required : List FsPath) :
    ∀ (l : List FsPath) (fs : Fs) (acc : Nat),
    ruGo fw_dir required false l fs acc
      = (fs, acc + (((l.filter (fun p => isFileFs fs p)).filter
          (fun p => decide (relTo fw_dir p ∉ required))).map (fun p => fileSize fs p)).sum) := by
  intro l
  induction l with
  | nil => intro fs acc; simp [ruGo]
  | cons p rest ih =>
    intro fs acc
    cases hr : resolveFully fs linkFuel p with
    | none =>
      have hf : isFileFs fs p = false := by simp [isFileFs, hr]
      simp only [ruGo, hr]
      rw [ih fs acc, List.filter_cons, hf]
      simp
    | some e =>
      cases e with
      | file sz =>
        have hf : isFileFs fs p = true := by simp [isFileFs, hr]
        have hsz : fileSize fs p = sz := by simp [fileSize, hr]
        by_cases hreq : relTo fw_dir p ∈ required
        · simp only [ruGo, hr, if_pos hreq]
          rw [ih fs acc, List.filter_cons, hf]
          simp [List.filter_cons, hreq]
        · simp only [ruGo, hr, if_neg hreq]
          rw [ih fs (acc + sz), List.filter_cons, hf]
          simp [List.filter_cons, hreq, hsz]
          omega
      | symlink t =>
        have hf : isFileFs fs p = false := by simp [isFileFs, hr]
        simp only [ruGo, hr]
        rw [ih fs acc, List.filter_cons, hf]
        simp
      | dir =>
        have hf : isFileFs fs p = false := by simp [isFileFs, hr]
        simp only [ruGo, hr]
        rw [ih fs acc, List.filter_cons, hf]
        simp

lemma ruGo_lookup_notin (fw_dir : FsPath) (required : List FsPath) (delete : Bool) :
    ∀ (l : List FsPath) (fs : Fs) (acc : Nat) (q : FsPath), q ∉ l →
    lookupFs (ruGo fw_dir required delete l fs acc).1 q = lookupFs fs q := by
  intro l
  induction l with
  | nil => intro fs acc q _; rfl
  | cons p rest ih =>
    intro fs acc q hq
    have hqp : q ≠ p := fun h => hq (h ▸ List.mem_cons_self p rest)
    have hqr : q ∉ rest := fun h => hq (List.mem_cons_of_mem p h)
    cases hr : resolveFully fs linkFuel p with
    | none => simp only [ruGo, hr]; exact ih fs acc q hqr
    | some e =>
      cases e with
      | file sz =>
        by_cases hreq : relTo fw_dir p ∈ required
        · simp only [ruGo, hr, if_pos hreq]; exact ih fs acc q hqr
        · cases delete with
          | false =>
            have hstep : ruGo fw_dir required false (p :: rest) fs acc
                = ruGo fw_dir required false rest fs (acc + sz) := by
              simp [ruGo, hr, hreq]
            rw [hstep]
            exact ih fs (acc + sz) q hqr
          | true =>
            have hstep : ruGo fw_dir required true (p :: rest) fs acc
                = ruGo fw_dir required true rest (removeEntry fs p) (acc + sz) := by
              simp [ruGo, hr, hreq]
            rw [hstep, ih (removeEntry fs p) (acc + sz) q hqr]
            exact lookupFs_removeEntry_ne hqp
      | symlink t => simp only [ruGo, hr]; exact ih fs acc q hqr
      | dir => simp only [ruGo, hr]; exact ih fs acc q hqr

lemma ruGo_file_entry (fw_dir : FsPath) (required : List FsPath) :
    ∀ (l : List FsPath) (fs : Fs) (acc : Nat) (p : FsPath) (sz : Nat),
    l.Nodup → p ∈ l → lookupFs fs p = some (.file sz) →
    lookupFs (ruGo fw_dir required true l fs acc).1 p
      = (if relTo fw_dir p ∈ required then some (.file sz) else none) := by
  intro l
  induction l with
  | nil => intro fs acc p sz _ hp; cases hp
  | cons q rest ih =>
    intro fs acc p sz hnd hp hl
    rcases List.mem_cons.mp hp with heq | hrest
    · have hr : resolveFully fs linkFuel p = some (.file sz) :=
        resolveFully_of_lookup hl (by intro t h; cases h)
      have hprest : p ∉ rest := by
        rw [heq]
        exact (List.nodup_cons.mp hnd).1
      rw [← heq]
      by_cases hreq : relTo fw_dir p ∈ required
      · have hstep : ruGo fw_dir required true (p :: rest) fs acc
            = ruGo fw_dir required true rest fs acc := by
          simp [ruGo, hr, hreq]
        rw [hstep, if_pos hreq,
          ruGo_lookup_notin fw_dir required true rest fs acc p hprest, hl]
      · have hstep : ruGo fw_dir required true (p :: rest) fs acc
            = ruGo fw_dir required true rest (removeEntry fs p) (acc + sz) := by
          simp [ruGo, hr, hreq]
        rw [hstep, if_neg hreq,
          ruGo_lookup_notin fw_dir required true rest (removeEntry fs p) (acc + sz) p hprest]
        exact lookupFs_removeEntry_self
    · have hpq : p ≠ q := by
        intro h
        rw [h] at hrest
        exact (List.nodup_cons.mp hnd).1 hrest
      have hnd2 : rest.Nodup := (List.nodup_cons.mp hnd).2
      cases hr : resolveFully fs linkFuel q with
      | none => simp only [ruGo, hr]; exact ih fs acc p sz hnd2 hrest hl
      | some e =>
        cases e with
        | file sz2 =>
          by_cases hreq : relTo fw_dir q ∈ required
          · have hstep : ruGo fw_dir required true (q :: rest) fs acc
                = ruGo fw_dir required true rest fs acc := by
              simp [ruGo, hr, hreq]
            rw [hstep]
            exact ih fs acc p sz hnd2 hrest hl
          · have hstep : ruGo fw_dir required true (q :: rest) fs acc
                = ruGo fw_dir required true rest (removeEntry fs q) (acc + sz2) := by
              simp [ruGo, hr, hreq]
            rw [hstep]
            exact ih (removeEntry fs q) (acc + sz2) p sz hnd2 hrest
              ((lookupFs_removeEntry_ne hpq).trans hl)
        | symlink t => simp only [ruGo, hr]; exact ih fs acc p sz hnd2 hrest hl
        | dir => simp only [ruGo, hr]; exact ih fs acc p sz hnd2 hrest hl

lemma rdGo_preserve_file {p : FsPath} {sz : Nat} :
    ∀ (l : List FsPath) (fs : Fs), lookupFs fs p = some (.file sz) →
    lookupFs (rdGo l fs) p = some (.file sz) := by
  intro l
  induction l with
  | nil => intro fs hl; exact hl
  | cons q rest ih =>
    intro fs hl
    cases hq : lookupFs fs q with
    | none => simp only [rdGo, hq]; exact ih fs hl
    | some e =>
      cases e with
      | symlink t =>
        cases hex : pathExists fs q with
        | true => simp only [rdGo, hq, hex, if_pos rfl]; exact ih fs hl
        | false =>
          have hqp : p ≠ q := by
            intro h
            rw [h, hq] at hl
            cases hl
          have hstep : rdGo (q :: rest) fs = rdGo rest (removeEntry fs q) := by
            simp [rdGo, hq, hex]
          rw [hstep]
          exact ih (removeEntry fs q) ((lookupFs_removeEntry_ne hqp).trans hl)
      | file sz2 => simp only [rdGo, hq]; exact ih fs hl
      | dir => simp only [rdGo, hq]; exact ih fs hl

lemma rdGo_preserve_none {p : FsPath} :
    ∀ (l : List FsPath) (fs : Fs), lookupFs fs p = none →
    lookupFs (rdGo l fs) p = none := by
  intro l
  induction l with
  | nil => intro fs hl; exact hl
  | cons q rest ih =>
    intro fs hl
    cases hq : lookupFs fs q with
    | none => simp only [rdGo, hq]; exact ih fs hl
    | some e =>
      cases e with
      | symlink t =>
        cases hex : pathExists fs q with
        | true => simp only [rdGo, hq, hex, if_pos rfl]; exact ih fs hl
        | false =>
          have hstep : rdGo (q :: rest) fs = rdGo rest (removeEntry fs q) := by
            simp [rdGo, hq, hex]
          rw [hstep]
          exact ih (removeEntry fs q) (lookupFs_none_removeEntry hl)
      | file sz2 => simp only [rdGo, hq]; exact ih fs hl
      | dir => simp only [rdGo, hq]; exact ih fs hl

lemma reGo_preserve_notin {fw_dir p : FsPath} :
    ∀ (l : List FsPath) (fs : Fs), p ∉ l →
    lookupFs (reGo fw_dir l fs) p = lookupFs fs p := by
  intro l
  induction l with
  | nil => intro fs _; rfl
  | cons q rest ih =>
    intro fs hp
    have hpq : p ≠ q := fun h => hp (h ▸ List.mem_cons_self q rest)
    have hpr : p ∉ rest := fun h => hp (List.mem_cons_of_mem q h)
    by_cases hc : (decide (q ≠ fw_dir) && !(hasChild fs q)) = true
    · have hstep : reGo fw_dir (q :: rest) fs = reGo fw_dir rest (removeEntry fs q) := by
        simp only [reGo, if_pos hc]
      rw [hstep, ih (removeEntry fs q) hpr]
      exact lookupFs_removeEntry_ne hpq
    · have hstep : reGo fw_dir (q :: rest) fs = reGo fw_dir rest fs := by
        simp only [reGo, if_neg hc]
      rw [hstep]
      exact ih fs hpr

lemma reGo_preserve_none {fw_dir p : FsPath} :
    ∀ (l : List FsPath) (fs : Fs), lookupFs fs p = none →
    lookupFs (reGo fw_dir l fs) p = none := by
  intro l
  induction l with
  | nil => intro fs hl; exact hl
  | cons q rest ih =>
    intro fs hl
    by_cases hc : (decide (q ≠ fw_dir) && !(hasChild fs q)) = true
    · have hstep : reGo fw_dir (q :: rest) fs = reGo fw_dir rest (removeEntry fs q) := by
        simp only [reGo, if_pos hc]
      rw [hstep]
      exact ih (removeEntry fs q) (lookupFs_none_removeEntry hl)
    · have hstep : reGo fw_dir (q :: rest) fs = reGo fw_dir rest fs := by
        simp only [reGo, if_neg hc]
      rw [hstep]
      exact ih fs hl

/-- A regular-file entry is never removed by the dangling-symlink or
empty-directory passes. -/
lemma passes_preserve_file {fs : Fs} {fw_dir p : FsPath} {sz : Nat}
    (hl : lookupFs fs p = some (.file sz)) :
    lookupFs (remove_empty_directories (remove_dangling_symlinks fs fw_dir) fw_dir) p
      = some (.file sz) := by
  have h3 : lookupFs (remove_dangling_symlinks fs fw_dir) p = some (.file sz) :=
    rdGo_preserve_file (walkPaths fs fw_dir) fs hl
  unfold remove_empty_directories
  apply (reGo_preserve_notin _ _ ?_).trans h3
  intro hmem
  rw [List.mem_mergeSort, List.mem_filter] at hmem
  have hdir := hmem.2
  unfold isDirFs at hdir
  rw [resolveFully_of_lookup h3 (by intro t h; cases h)] at hdir
  cases hdir

/-- An absent path stays absent through both passes. -/
lemma passes_preserve_none {fs : Fs} {fw_dir p : FsPath}
    (hl : lookupFs fs p = none) :
    lookupFs (remove_empty_directories (remove_dangling_symlinks fs fw_dir) fw_dir) p
      = none := by
  have h3 : lookupFs (remove_dangling_symlinks fs fw_dir) p = none :=
    rdGo_preserve_none (walkPaths fs fw_dir) fs hl
  exact reGo_preserve_none _ _ h3

/-- Claim C8: for a firmware name with no wildcard, exactly the three
candidate paths — the literal path under the firmware root and that
path with `.xz` and `.zst` appended — are tested, and the result holds
precisely the candidates existing on disk. -/
theorem find_firmware_files_literal (fs : Fs) (fw_name : String) (fw_dir : FsPath)
    (hlit : (fw_name.data.contains '*') = false) :
    ∀ p, p ∈ find_firmware_files_from_name fs fw_name fw_dir
      ↔ ((p = fw_dir ++ splitPathStr fw_name
          ∨ p = addExt (fw_dir ++ splitPathStr fw_name) ".xz"
          ∨ p = addExt (fw_dir ++ splitPathStr fw_name) ".zst")
         ∧ pathExists fs p = true) := by
  intro p
  unfold find_firmware_files_from_name
  rw [if_pos hlit, List.mem_filter]
  simp

/-- A firmware root holding only the `.xz` variant, as in
`test_find_firmware_files_from_name`. -/
def fsC8 : Fs := [(["fw", "iwlwifi-2.bin.xz"], .file 3)]

/-- Witness for the C8 theorem: the `.xz` candidate exists and is
found; the plain and `.zst` candidates do not exist and are not. -/
theorem find_firmware_files_literal_witness :
    ["fw", "iwlwifi-2.bin.xz"] ∈ find_firmware_files_from_name fsC8 "iwlwifi-2.bin" ["fw"]
    ∧ ["fw", "iwlwifi-2.bin"] ∉ find_firmware_files_from_name fsC8 "iwlwifi-2.bin" ["fw"] := by
  constructor
  · exact (find_firmware_files_literal fsC8 "iwlwifi-2.bin" ["fw"] (by decide)
      ["fw", "iwlwifi-2.bin.xz"]).mpr (by decide)
  · intro hmem
    have := (find_firmware_files_literal fsC8 "iwlwifi-2.bin" ["fw"] (by decide)
      ["fw", "iwlwifi-2.bin"]).mp hmem
    revert this
    decide

/-! Fixture for the firmware metadata-lookup failure (claim C2). -/

/-- Kernel directory fixture. -/
def modsDir : FsPath := ["mods", "6.1"]

/-- Firmware root fixture. -/
def fwDir : FsPath := ["fw"]

/-- First kernel module. -/
def modM1 : FsPath := ["mods", "6.1", "m1.ko"]

/-- Second kernel module. -/
def modM2 : FsPath := ["mods", "6.1", "m2.ko"]

/-- Two modules and one firmware blob on disk. -/
def fsC2 : Fs :=
  [ (modM1, .file 10), (modM2, .file 10), (["fw", "fw1.bin"], .file 5) ]

/-- A metadata runner failing for the first module and succeeding for
the second (which declares `fw1.bin`). -/
def runnerC2 : FsPath → Except String String :=
  fun p => if p = modM1 then .error "modinfo failed" else .ok "fw1.bin"

/-- Claim C2 evaluated on the code: a metadata-lookup failure for one
module is NOT recovered — `get_required_firmware` propagates it
through the `?` at firmware.rs line 77 and the whole firmware cleanup
returns the error instead of treating the module as declaring no
firmware and succeeding for the remaining module. -/
theorem get_required_firmware_propagates_failure :
    get_required_firmware fsC2 modsDir fwDir runnerC2 = .error "modinfo failed"
    ∧ cleanup_firmware fsC2 modsDir fwDir false runnerC2 = .error "modinfo failed" :=
  ⟨rfl, rfl⟩

/-- Claim C9: the deletion planner for firmware.  A dry run returns
the filesystem unchanged together with the total byte size of the
walked files whose root-relative paths are not required, and performs
neither the dangling-symlink nor the empty-directory pass; an
authorized run removes, among the regular-file entries, exactly those
under the root whose relative paths are not required — also after the
two additional passes. -/
theorem cleanup_firmware_dry_and_delete :
    (∀ (fs : Fs) (fw_dir : FsPath) (required : List FsPath),
      remove_unused_files fs fw_dir required false = (fs, unusedSize fs fw_dir required))
    ∧ (∀ (fs : Fs) (kd fw_dir : FsPath) (runner : FsPath → Except String String)
        (R : List FsPath),
      get_required_firmware fs kd fw_dir runner = .ok R →
      cleanup_firmware fs kd fw_dir false runner
        = .ok (fs, unusedSize fs fw_dir (R.map (relTo fw_dir))))
    ∧ (∀ (fs : Fs) (fw_dir : FsPath) (required : List FsPath) (p : FsPath) (sz : Nat),
      (fs.map (fun x => x.1)).Nodup → (p, Entry.file sz) ∈ fs →
      lookupFs (remove_unused_files fs fw_dir required true).1 p
        = (if fw_dir.isPrefixOf p = true ∧ relTo fw_dir p ∉ required
            then none else some (.file sz)))
    ∧ (∀ (fs : Fs) (kd fw_dir : FsPath) (runner : FsPath → Except String String)
        (R : List FsPath) (p : FsPath) (sz : Nat),
      (fs.map (fun x => x.1)).Nodup →
      get_required_firmware fs kd fw_dir runner = .ok R →
      (p, Entry.file sz) ∈ fs →
      cleanup_firmware fs kd fw_dir true runner
        = .ok (remove_empty_directories
            (remove_dangling_symlinks
              (remove_unused_files fs fw_dir (R.map (relTo fw_dir)) true).1 fw_dir) fw_dir,
          (remove_unused_files fs fw_dir (R.map (relTo fw_dir)) true).2)
      ∧ lookupFs (remove_empty_directories
            (remove_dangling_symlinks
              (remove_unused_files fs fw_dir (R.map (relTo fw_dir)) true).1 fw_dir) fw_dir) p
        = (if fw_dir.isPrefixOf p = true ∧ relTo fw_dir p ∉ R.map (relTo fw_dir)
            then none else some (.file sz))) := by
  have hdry : ∀ (fs : Fs) (fw_dir : FsPath) (required : List FsPath),
      remove_unused_files fs fw_dir required false = (fs, unusedSize fs fw_dir required) := by
    intro fs fw_dir required
    unfold remove_unused_files
    rw [ruGo_dry fw_dir required (walkPaths fs fw_dir) fs 0]
    unfold unusedSize
    simp
  have hdel : ∀ (fs : Fs) (fw_dir : FsPath) (required : List FsPath) (p : FsPath) (sz : Nat),
      (fs.map (fun x => x.1)).Nodup → (p, Entry.file sz) ∈ fs →
      lookupFs (remove_unused_files fs fw_dir required true).1 p
        = (if fw_dir.isPrefixOf p = true ∧ relTo fw_dir p ∉ required
            then none else some (.file sz)) := by
    intro fs fw_dir required p sz hnd hmem
    have hl : lookupFs fs p = some (.file sz) := lookupFs_of_mem_nodup hnd hmem
    by_cases hpre : fw_dir.isPrefixOf p = true
    · have hwp : p ∈ walkPaths fs fw_dir := by
        rw [walkPaths, List.mem_filter]
        exact ⟨List.mem_map.mpr ⟨(p, Entry.file sz), hmem, rfl⟩, hpre⟩
      have hwnd : (walkPaths fs fw_dir).Nodup := List.Nodup.filter _ hnd
      unfold remove_unused_files
      rw [ruGo_file_entry fw_dir required (walkPaths fs fw_dir) fs 0 p sz hwnd hwp hl]
      by_cases hreq : relTo fw_dir p ∈ required
      · rw [if_pos hreq, if_neg (by simp [hreq])]
      · rw [if_neg hreq, if_pos ⟨hpre, hreq⟩]
    · have hnw : p ∉ walkPaths fs fw_dir := by
        rw [walkPaths, List.mem_filter]
        rintro ⟨_, h⟩
        exact hpre h
      unfold remove_unused_files
      rw [ruGo_lookup_notin fw_dir required true (walkPaths fs fw_dir) fs 0 p hnw, hl,
        if_neg (by rintro ⟨h, _⟩; exact hpre h)]
  refine ⟨hdry, ?_, hdel, ?_⟩
  · intro fs kd fw_dir runner R hR
    unfold cleanup_firmware
    rw [hR]
    simp only [if_neg (by simp : ¬(false = true))]
    rw [hdry fs fw_dir (R.map (relTo fw_dir))]
  · intro fs kd fw_dir runner R p sz hnd hR hmem
    constructor
    · unfold cleanup_firmware
      rw [hR]
      simp
    · have h2 := hdel fs fw_dir (R.map (relTo fw_dir)) p sz hnd hmem
      by_cases hcond : fw_dir.isPrefixOf p = true ∧ relTo fw_dir p ∉ R.map (relTo fw_dir)
      · rw [if_pos hcond] at h2 ⊢
        exact passes_preserve_none h2
      · rw [if_neg hcond] at h2 ⊢
        exact passes_preserve_file h2

/-! Fixture for the end-to-end firmware scenario (claim C9's witness):
`required.bin` is declared by the module, `unused.bin` is not. -/

/-- One module, the firmware root, a required and an unused blob. -/
def fsC9 : Fs :=
  [ (modM1, .file 1), (["fw"], .dir),
    (["fw", "required.bin"], .file 13), (["fw", "unused.bin"], .file 11) ]

/-- The metadata runner declaring `required.bin` for the module. -/
def runnerC9 : FsPath → Except String String :=
  fun p => if p = modM1 then .ok "required.bin" else .error "not mocked"

/-- Witness for the C9 theorem on the de-facto spec scenario: the dry
run reports the 11 bytes of `unused.bin` and leaves the filesystem
unchanged; the authorized run removes `unused.bin` and keeps
`required.bin`. -/
theorem cleanup_firmware_dry_and_delete_witness :
    cleanup_firmware fsC9 modsDir fwDir false runnerC9 = .ok (fsC9, 11)
    ∧ lookupFs (remove_unused_files fsC9 fwDir [["required.bin"]] true).1
        ["fw", "unused.bin"] = none
    ∧ lookupFs (remove_unused_files fsC9 fwDir [["required.bin"]] true).1
        ["fw", "required.bin"] = some (.file 13) := by
  refine ⟨?_, ?_, ?_⟩
  · rw [cleanup_firmware_dry_and_delete.2.1 fsC9 modsDir fwDir runnerC9
      [["fw", "required.bin"]] rfl]
    rfl
  · rw [cleanup_firmware_dry_and_delete.2.2.1 fsC9 fwDir [["required.bin"]]
      ["fw", "unused.bin"] 11 (by decide) (by decide)]
    decide
  · rw [cleanup_firmware_dry_and_delete.2.2.1 fsC9 fwDir [["required.bin"]]
      ["fw", "required.bin"] 13 (by decide) (by decide)]
    decide

end ImageJanitor
